import Mathlib

/-!
Verification of the Luigi GEO-dataset pipeline (`src/luigi_dz1.py`).

The development shallowly embeds the pipeline's pure core:

* the section-delimited flat-file parser (`ProcessFiles._process_text_file`
  and `ProcessFiles._finalize_section`),
* the pandas tabular-parsing collaborator (`pd.read_csv` on a tab-separated
  buffer), modelled at the granularity the pipeline relies on,
* the column pruner (`TrimProbes._process_probes_file`),
* the cleanup pass (`Cleanup.run`) over a model filesystem tree,
* the per-stage run bodies and completion-marker discipline of the five
  luigi tasks, with external collaborators (wget, tarfile, gzip, atomic
  `LocalTarget` writes) represented by their success/failure outcomes.
-/

namespace Luigi

/-! ## String helpers (Python string methods) -/

/-- Python `str.strip()` on a line: remove leading and trailing whitespace
characters (space, tab, newline, carriage return). -/
def pyStrip (s : String) : String :=
  String.mk (((s.toList.dropWhile Char.isWhitespace).reverse.dropWhile
    Char.isWhitespace).reverse)

/-- A bracket character, as in Python `line.strip('[]')`. -/
def isBracketChar (c : Char) : Bool :=
  c = '[' || c = ']'

/-- Python `line.strip('[]')`: remove ALL leading and trailing characters
drawn from the set `{'[', ']'}` (not merely one from each end). -/
def stripBrackets (s : String) : String :=
  String.mk (((s.toList.dropWhile isBracketChar).reverse.dropWhile
    isBracketChar).reverse)

/-- Does the line begin with `'['` (Python `line.startswith('[')`)? -/
def startsWithBracket (s : String) : Bool :=
  match s.toList with
  | [] => false
  | c :: _ => c = '['

/-- Split a character list on a separator character. -/
def splitOnCharAux (sep : Char) : List Char → List Char → List String
  | [], acc => [String.mk acc.reverse]
  | c :: cs, acc =>
    if c = sep then String.mk acc.reverse :: splitOnCharAux sep cs []
    else splitOnCharAux sep cs (c :: acc)

/-- Split a string on a separator character. -/
def splitOnChar (sep : Char) (s : String) : List String :=
  splitOnCharAux sep s.toList []

/-- Fields of one tab-separated line (`sep='\t'`). -/
def splitTab (s : String) : List String :=
  splitOnChar '\t' s

/-- Does `s` end with the suffix `suf` (Python `str.endswith`)? -/
def strEndsWith (s suf : String) : Bool :=
  suf.toList.reverse.isPrefixOf s.toList.reverse

/-! ## Tables and the pandas collaborator

`ProcessFiles._finalize_section` hands a raw section buffer to
`pd.read_csv(buffer, sep='\t', header=header)`.  We model the collaborator
faithfully at the granularity the pipeline observes:

* blank lines are skipped (`skip_blank_lines=True`, the default);
* a buffer with no non-blank line raises `EmptyDataError`
  ("No columns to parse from file");
* with `header='infer'` the first non-blank line is the header row; if the
  FIRST data row carries more fields than the header, the extra leading
  fields are promoted to (multi-)index columns — no error — and the
  frame's established row width becomes that first data row's width;
  otherwise the established width is the header's field count;
* a later data row carrying MORE fields than the established width raises
  `ParserError` ("Error tokenizing data: Expected N fields, saw M"); a
  row with fewer fields is padded with missing values (`NaN`, modelled as
  `none`);
* with `header=None` every non-blank line is a data row, the first line
  establishes the width (no index promotion), and the columns get
  positional integer labels `0, 1, ...`;
* the pipeline writes tables with `to_csv(..., index=False)`, so a
  promoted index never reaches the persisted table: rows keep only the
  cells under the named header columns.
-/

/-- A pandas table: ordered column labels plus rows of optional cells
(`none` models `NaN`). -/
structure Table where
  header : List String
  rows : List (List (Option String))
deriving DecidableEq, Repr

/-- The pandas exceptions the pipeline can encounter while reading a
tab-separated buffer. -/
inductive PdError where
  | emptyData
  | parserError
deriving DecidableEq, Repr

/-- Pad a row with missing values up to the expected width. -/
def padRow (n : Nat) (fields : List String) : List (Option String) :=
  fields.map some ++ List.replicate (n - fields.length) none

/-- Model of `pd.read_csv(buffer, sep='\t', header=...)` on the lines of a
section buffer.  `headerNone = true` models `header=None` (the `"Heading"`
section); `headerNone = false` models `header='infer'`. -/
def read_csv (headerNone : Bool) (bufLines : List String) :
    Except PdError Table :=
  let lines := bufLines.filter (fun l => l ≠ "")
  match lines with
  | [] => .error .emptyData
  | first :: rest =>
    if headerNone then
      let w := (splitTab first).length
      if rest.any (fun l => w < (splitTab l).length) then
        .error .parserError
      else
        .ok { header := (List.range w).map toString,
              rows := (first :: rest).map (fun l => padRow w (splitTab l)) }
    else
      let k := (splitTab first).length
      match rest with
      | [] => .ok { header := splitTab first, rows := [] }
      | d0 :: _ =>
        let w := max k (splitTab d0).length
        if rest.any (fun l => w < (splitTab l).length) then
          .error .parserError
        else
          .ok { header := splitTab first,
                rows := rest.map
                  (fun l => (padRow w (splitTab l)).drop (w - k)) }

/-! ## The section parser (`ProcessFiles._process_text_file`) -/

/-- Python dict assignment `dfs[section] = df`: insertion order is kept;
an existing key keeps its position and gets the new value. -/
def dictInsert (dfs : List (String × Table)) (k : String) (t : Table) :
    List (String × Table) :=
  if dfs.any (fun p => p.1 = k) then
    dfs.map (fun p => if p.1 = k then (k, t) else p)
  else dfs ++ [(k, t)]

/-- `ProcessFiles._finalize_section(dfs, section, buffer)`.  A falsy section
(`None` or the empty name) or an empty buffer is dropped silently; an
`EmptyDataError` from the collaborator is logged as a warning and dropped;
any other pandas error (notably `ParserError`) is NOT caught and
propagates to the caller. -/
def finalize_section (dfs : List (String × Table)) (sect : Option String)
    (buffer : List String) : Except PdError (List (String × Table)) :=
  match sect with
  | none => .ok dfs
  | some s =>
    if s = "" || buffer.isEmpty then .ok dfs
    else
      match read_csv (s = "Heading") buffer with
      | .ok df => .ok (dictInsert dfs s df)
      | .error .emptyData => .ok dfs
      | .error .parserError => .error .parserError

/-- The loop state of `_process_text_file`: the accumulated tables, the
active section name (Python `current_section`, `none` before the first
header line), and the raw buffer of stripped lines written so far. -/
structure ParseState where
  dfs : List (String × Table)
  current_section : Option String
  buffer : List String
deriving DecidableEq, Repr

/-- Initial parser state (`dfs = {}`, `current_section = None`,
`buffer = StringIO()`). -/
def initState : ParseState :=
  { dfs := [], current_section := none, buffer := [] }

/-- Python truthiness of `current_section` (`None` and `""` are falsy). -/
def sectionTruthy : Option String → Bool
  | none => false
  | some s => s ≠ ""

/-- One iteration of the `for line in f` loop of `_process_text_file`. -/
def process_line (st : ParseState) (rawLine : String) :
    Except PdError ParseState :=
  let line := pyStrip rawLine
  if startsWithBracket line then
    match finalize_section st.dfs st.current_section st.buffer with
    | .error e => .error e
    | .ok dfs =>
      .ok { dfs := dfs, current_section := some (stripBrackets line),
            buffer := [] }
  else if sectionTruthy st.current_section then
    .ok { st with buffer := st.buffer ++ [line] }
  else
    .ok st

/-- Run the parser loop over a list of raw lines. -/
def process_lines (st : ParseState) : List String → Except PdError ParseState
  | [] => .ok st
  | l :: ls =>
    match process_line st l with
    | .error e => .error e
    | .ok st₂ => process_lines st₂ ls

/-- `ProcessFiles._process_text_file` on the lines of one decompressed
file: run the loop, then finalize the last section.  The result is the
insertion-ordered dictionary of section tables. -/
def process_text_file (lines : List String) :
    Except PdError (List (String × Table)) :=
  match process_lines initState lines with
  | .error e => .error e
  | .ok st => finalize_section st.dfs st.current_section st.buffer

/-- Iterating `for line in f` over a file body: split on newlines; a final
trailing newline yields no extra empty line. -/
def fileLines (s : String) : List String :=
  let parts := splitOnChar '\n' s
  if parts.getLast? = some "" then parts.dropLast else parts

/-- `_process_text_file` applied to a whole file body given as one string. -/
def process_text (content : String) : Except PdError (List (String × Table)) :=
  process_text_file (fileLines content)

/-! ## The column pruner (`TrimProbes._process_probes_file`) -/

/-- The fixed deny-list of `TrimProbes._process_probes_file`. -/
def columns_to_drop : List String :=
  ["Definition", "Ontology_Component", "Ontology_Process",
   "Ontology_Function", "Synonyms", "Obsolete_Probe_Id", "Probe_Sequence"]

/-- `df.drop(columns=cols)`: remove every column whose label is in `cols`,
keeping the remaining columns in their original order; in each row, keep
exactly the cells of the surviving columns. -/
def dropColumns (t : Table) (cols : List String) : Table :=
  { header := t.header.filter (fun c => ¬ cols.contains c),
    rows := t.rows.map (fun r =>
      ((t.header.zip r).filter (fun p => ¬ cols.contains p.1)).map Prod.snd) }

/-- The dataframe transform at the core of
`TrimProbes._process_probes_file`: compute the deny-listed columns present
in the table, then drop them. -/
def process_probes (df : Table) : Table :=
  let existing_columns :=
    columns_to_drop.filter (fun col => df.header.contains col)
  dropColumns df existing_columns

/-! ## The cleanup pass (`Cleanup.run`)

`Cleanup.run` first unlinks every `**/*.txt` match under
`data/processed/<id>`, then iterates `processed_dir.glob("**/*")` and
calls `rmdir` on every directory that has no entries at the moment it is
visited.  We model the directory tree under `data/processed/<id>` as a
list of entries (the children of the processed directory).  `pathlib`'s
recursive glob enumerates, for each directory in depth-first pre-order
(the root first, then each subdirectory before its later siblings), the
children of that directory; hence every directory is visited strictly
before its own children.  A directory removed by the pass is empty, so it
contributes no entries of its own and the enumeration is the one computed
from the tree as it stands after the `.txt` deletion pass. -/

/-- A file-system entry: a file, or a directory with its children. -/
inductive FsEntry where
  | file (nm : String)
  | dir (nm : String) (children : List FsEntry)
deriving Repr

/-- The name of an entry. -/
def FsEntry.name : FsEntry → String
  | .file nm => nm
  | .dir nm _ => nm

/-- Is the entry a directory? -/
def FsEntry.isDir : FsEntry → Bool
  | .file _ => false
  | .dir _ _ => true

/-- Is the entry a directory with no entries (`not any(iterdir())`)? -/
def FsEntry.isEmptyDir : FsEntry → Bool
  | .dir _ [] => true
  | _ => false

/-- The first loop of `Cleanup.run`: unlink every file matching
`**/*.txt` anywhere in the tree. -/
def removeTxt : List FsEntry → List FsEntry
  | [] => []
  | .file nm :: rest =>
    if strEndsWith nm ".txt" then removeTxt rest
    else .file nm :: removeTxt rest
  | .dir nm cs :: rest => .dir nm (removeTxt cs) :: removeTxt rest

/-- No directory in the tree is named `*.txt` (such a directory would make
the `unlink` call of the first loop raise an uncaught `IsADirectoryError`). -/
def noTxtDirs : List FsEntry → Bool
  | [] => true
  | .file _ :: rest => noTxtDirs rest
  | .dir nm cs :: rest =>
    !strEndsWith nm ".txt" && noTxtDirs cs && noTxtDirs rest

/-- The visit entries contributed by descending into each directory of the
list, in order: for a directory `d`, the entries of `glob("**/*")` below
`d`, each prefixed with `d`'s name. -/
def visitAux : List FsEntry → List (List String)
  | [] => []
  | .file _ :: rest => visitAux rest
  | .dir nm gs :: rest =>
    ((gs.map (fun c => [c.name])) ++ visitAux gs).map (fun p => nm :: p)
      ++ visitAux rest

/-- The order in which `processed_dir.glob("**/*")` yields the entries of
the tree: first the children of the root, then, for each directory in
pre-order, the entries below it. -/
def visitList (cs : List FsEntry) : List (List String) :=
  (cs.map (fun c => [c.name])) ++ visitAux cs

/-- One iteration of the second loop of `Cleanup.run` at the visited path:
if the path denotes a directory with no entries in the CURRENT tree,
remove it (`rmdir`); otherwise leave the tree unchanged (a vanished path
fails the `is_dir` test, a non-empty directory fails the `iterdir` test). -/
def rmdirIfEmpty : List FsEntry → List String → List FsEntry
  | cs, [] => cs
  | [], _ :: _ => []
  | c :: cs, [nm] =>
    (if c.name = nm && c.isEmptyDir then [] else [c]) ++ rmdirIfEmpty cs [nm]
  | c :: cs, nm :: q :: qs =>
    (match c with
     | .dir nm₂ gs =>
       if nm₂ = nm then FsEntry.dir nm₂ (rmdirIfEmpty gs (q :: qs))
       else FsEntry.dir nm₂ gs
     | .file nm₂ => .file nm₂) :: rmdirIfEmpty cs (nm :: q :: qs)

/-- The effect of one visit on one top-level entry, when the visited path
descends into a subdirectory (length at least two): only a directory
carrying the path's first name is touched, and the removal recurses into
its children.  `rmdirIfEmpty` on such a path maps this over the list. -/
def visitStep (c : FsEntry) (p : List String) : FsEntry :=
  match p, c with
  | nm :: q :: qs, .dir nm₂ gs =>
    if nm₂ = nm then .dir nm₂ (rmdirIfEmpty gs (q :: qs))
    else .dir nm₂ gs
  | _, c => c

/-- The second loop of `Cleanup.run`: fold the empty-directory removal
over the visit order. -/
def cleanupDirs (cs : List FsEntry) (visits : List (List String)) :
    List FsEntry :=
  visits.foldl rmdirIfEmpty cs

/-- The whole file-system effect of `Cleanup.run` on the processed tree:
delete the `.txt` files, then sweep directories in glob order. -/
def cleanupRun (cs : List FsEntry) : List FsEntry :=
  cleanupDirs (removeTxt cs) (visitList (removeTxt cs))

/-- Reference transform: drop exactly the directories that are ALREADY
empty, without cascading (a directory that only becomes empty through the
removal of its children is kept). -/
def pruneEmptyDirs : List FsEntry → List FsEntry
  | [] => []
  | .file nm :: rest => .file nm :: pruneEmptyDirs rest
  | .dir _ [] :: rest => pruneEmptyDirs rest
  | .dir nm (g :: gs) :: rest =>
    .dir nm (pruneEmptyDirs (g :: gs)) :: pruneEmptyDirs rest

/-- The per-entry effect of the reference transform `pruneEmptyDirs`:
files pass through, a directory keeps its name and has its own empty
subdirectories pruned. -/
def pruneOne : FsEntry → FsEntry
  | .file nm => .file nm
  | .dir nm gs => .dir nm (pruneEmptyDirs gs)

/-- Sibling names are distinct throughout the tree (true of a real
file system). -/
def wfNames : List FsEntry → Bool
  | [] => true
  | .file nm :: rest => rest.all (fun c => c.name ≠ nm) && wfNames rest
  | .dir nm gs :: rest =>
    rest.all (fun c => c.name ≠ nm) && wfNames gs && wfNames rest

/-- No file named `*.txt` anywhere in the tree. -/
def noTxtFiles : List FsEntry → Bool
  | [] => true
  | .file nm :: rest => !strEndsWith nm ".txt" && noTxtFiles rest
  | .dir _ gs :: rest => noTxtFiles gs && noTxtFiles rest

/-! ## Stage bodies and the completion-marker discipline

Each luigi task body is embedded over an environment recording the
outcomes of its external collaborator calls.  Every `run` model returns,
besides its stage-specific output, two booleans: whether the body ran to
completion without an exception propagating (luigi then regards the task
as done), and whether the stage's completion marker was created.
`LocalTarget.open('w')` writes to a temporary file and atomically moves it
into place when the with-block closes, so a marker write either fully
creates the marker or leaves no marker; likewise the `wget` collaborator
downloads to a temporary file and moves it onto `data/raw/<id>_RAW.tar`
only on success. -/

/-- Collaborator outcomes seen by `DownloadDataset.run`:
did `wget.download` succeed? -/
structure DownloadEnv where
  wget_ok : Bool

/-- `DownloadDataset.run`: on a download failure the error is logged and
`luigi.TaskFailed` is raised; the output tar (which is this stage's
marker) exists exactly when the download succeeded.
Returns `(body succeeded, marker created)`. -/
def DownloadDataset.run (env : DownloadEnv) : Bool × Bool :=
  if env.wget_ok then (true, true) else (false, false)

/-- Collaborator outcomes seen by `ExtractMainArchive.run`: the
`tarfile.extractall` outcome and the atomic `_unpacked` marker write. -/
structure ExtractEnv where
  tar_ok : Bool
  marker_write_ok : Bool

/-- `ExtractMainArchive.run`: extract the archive, then write the
`_unpacked` marker; a `TarError`/`OSError` from either step is caught and
re-raised as `luigi.TaskFailed`, leaving no marker.
Returns `(body succeeded, marker created)`. -/
def ExtractMainArchive.run (env : ExtractEnv) : Bool × Bool :=
  if env.tar_ok then
    if env.marker_write_ok then (true, true) else (false, false)
  else (false, false)

/-- One `*.gz` member as `ProcessFiles.run` sees it: either decompression
raises (`BadGzipFile`/`OSError`), or it yields a text file with these
lines. -/
inductive GzOutcome where
  | badGzip
  | text (lines : List String)

/-- Environment of `ProcessFiles.run`: the extracted `*.gz` members (name
and outcome, in glob order) and the `_processed` marker-write outcome. -/
structure ProcessEnv where
  files : List (String × GzOutcome)
  marker_write_ok : Bool

/-- The per-file loop of `ProcessFiles.run`: a decompression failure is
logged and the file skipped (`continue`); a decompressed file is parsed
with `_process_text_file`, whose uncaught pandas errors propagate out of
the whole loop. -/
def processLoop :
    List (String × GzOutcome) →
      Except PdError (List (String × List (String × Table)))
  | [] => .ok []
  | (_, .badGzip) :: rest => processLoop rest
  | (nm, .text lines) :: rest =>
    match process_text_file lines with
    | .error e => .error e
    | .ok tables =>
      match processLoop rest with
      | .error e => .error e
      | .ok outs => .ok ((nm, tables) :: outs)

/-- `ProcessFiles.run`: run the per-file loop, then write the `_processed`
marker.  Returns `(loop result, body succeeded, marker created)`. -/
def ProcessFiles.run (env : ProcessEnv) :
    Except PdError (List (String × List (String × Table))) × Bool × Bool :=
  match processLoop env.files with
  | .error e => (.error e, false, false)
  | .ok outs =>
    if env.marker_write_ok then (.ok outs, true, true)
    else (.ok outs, false, false)

/-- Does this extracted member avoid failing the Process stage?  A
decompression failure is fine (it is caught and skipped); a decompressed
text file is fine exactly when `_process_text_file` raises no uncaught
pandas error. -/
def fileParses : String × GzOutcome → Bool
  | (_, .badGzip) => true
  | (_, .text lines) => (process_text_file lines).isOk

/-- Did this member decompress into a text file? -/
def isTextFile : String × GzOutcome → Bool
  | (_, .text _) => true
  | (_, .badGzip) => false

/-- Environment of `TrimProbes.run`: for each `**/Probes.tsv` glob match,
either reading/processing it raises (any exception is caught and logged)
or it yields a table; plus the `_trimmed` marker-write outcome. -/
structure TrimEnv where
  probes_files : List (Except Unit Table)
  marker_write_ok : Bool

/-- The per-match loop of `TrimProbes.run`: every exception while
processing one `Probes.tsv` is caught and logged, and the loop continues. -/
def trimLoop : List (Except Unit Table) → List Table
  | [] => []
  | .error _ :: rest => trimLoop rest
  | .ok df :: rest => process_probes df :: trimLoop rest

/-- `TrimProbes.run`: process every match (failures isolated), then write
the `_trimmed` marker.  Returns `(outputs, body succeeded, marker created)`. -/
def TrimProbes.run (env : TrimEnv) : List Table × Bool × Bool :=
  if env.marker_write_ok then (trimLoop env.probes_files, true, true)
  else (trimLoop env.probes_files, false, false)

/-- Environment of `Cleanup.run`: the processed tree and the `_cleanup`
marker-write outcome. -/
structure CleanupEnv where
  tree : List FsEntry
  marker_write_ok : Bool

/-- `Cleanup.run`: unlink the `.txt` files (only `FileNotFoundError` is
caught, so a directory named `*.txt` makes `unlink` raise and the body
fail), sweep the empty directories (`rmdir` failures swallowed), then
write the `_cleanup` marker.
Returns `(resulting tree if the body ran, body succeeded, marker created)`. -/
def Cleanup.run (env : CleanupEnv) :
    Except Unit (List FsEntry) × Bool × Bool :=
  if noTxtDirs env.tree then
    if env.marker_write_ok then (.ok (cleanupRun env.tree), true, true)
    else (.ok (cleanupRun env.tree), false, false)
  else (.error (), false, false)

/-! ## The pipeline engine -/

/-- The five stages of the pipeline, in dependency order. -/
inductive Stage where
  | download
  | extract
  | process
  | trim
  | cleanup
deriving DecidableEq, Repr

/-- The collaborator outcomes a full scheduling step may consume. -/
structure StageEnv where
  download : DownloadEnv
  extract : ExtractEnv
  process : ProcessEnv
  trim : TrimEnv
  cleanup : CleanupEnv

/-- Outcome `(body succeeded, marker created)` of running one stage body. -/
def stageOutcome (s : Stage) (env : StageEnv) : Bool × Bool :=
  match s with
  | .download => DownloadDataset.run env.download
  | .extract => ExtractMainArchive.run env.extract
  | .process => (ProcessFiles.run env.process).2
  | .trim => (TrimProbes.run env.trim).2
  | .cleanup => (Cleanup.run env.cleanup).2

/-- Pipeline state for one dataset: which completion markers exist on
disk, and (history, not stored on disk) which stage bodies have run to
completion successfully at least once since the workspace was cleared. -/
structure PipelineState where
  marker : Stage → Bool
  completed : Stage → Bool

/-- One scheduling step of the engine on stage `s`: if the stage's marker
exists the body is not run (luigi treats the task as complete); otherwise
the body runs, and the marker is created exactly when the body succeeds. -/
def runStage (st : PipelineState) (s : Stage) (env : StageEnv) :
    PipelineState :=
  if st.marker s then st
  else
    { marker := fun s₂ =>
        if s₂ = s then st.marker s₂ || (stageOutcome s env).2
        else st.marker s₂,
      completed := fun s₂ =>
        if s₂ = s then st.completed s₂ || (stageOutcome s env).1
        else st.completed s₂ }

/-! ## Helper lemmas -/

/-- The head of `dropWhile p l`, when present, fails `p`. -/
theorem head?_dropWhile_false {α : Type} {p : α → Bool} {l : List α} {a : α}
    (h : (l.dropWhile p).head? = some a) : p a = false := by
  induction l with
  | nil => simp at h
  | cons x xs ih =>
    by_cases hx : p x
    · rw [List.dropWhile_cons_of_pos hx] at h
      exact ih h
    · rw [List.dropWhile_cons_of_neg hx] at h
      simp only [List.head?_cons, Option.some.injEq] at h
      subst h
      exact Bool.not_eq_true _ |>.mp hx

/-- Stripping a character set from both ends (Python `str.strip(chars)`)
splits the list into a maximal stripped prefix, the kept core and a
maximal stripped suffix. -/
theorem stripChars_spec (p : Char → Bool) (s : List Char) :
    ∃ pre suf,
      s = pre ++ ((s.dropWhile p).reverse.dropWhile p).reverse ++ suf ∧
      (∀ c ∈ pre, p c = true) ∧ (∀ c ∈ suf, p c = true) ∧
      (∀ c, (((s.dropWhile p).reverse.dropWhile p).reverse).head? = some c →
        p c = false) ∧
      (∀ c, (((s.dropWhile p).reverse.dropWhile p).reverse).getLast? = some c →
        p c = false) := by
  refine ⟨s.takeWhile p, ((s.dropWhile p).reverse.takeWhile p).reverse,
    ?_, ?_, ?_, ?_, ?_⟩
  · have h₂ : s.dropWhile p
        = ((s.dropWhile p).reverse.dropWhile p).reverse
          ++ ((s.dropWhile p).reverse.takeWhile p).reverse := by
      rw [← List.reverse_append, List.takeWhile_append_dropWhile,
        List.reverse_reverse]
    rw [List.append_assoc, ← h₂]
    exact (List.takeWhile_append_dropWhile (p := p) (l := s)).symm
  · intro c hc
    exact List.mem_takeWhile_imp hc
  · intro c hc
    rw [List.mem_reverse] at hc
    exact List.mem_takeWhile_imp hc
  · intro c hc
    rw [List.head?_reverse] at hc
    have h₂ : ((s.dropWhile p).reverse).getLast? = some c := by
      have hne : (s.dropWhile p).reverse.dropWhile p ≠ [] := by
        intro hnil
        rw [hnil] at hc
        simp at hc
      rw [← List.takeWhile_append_dropWhile (p := p)
        (l := (s.dropWhile p).reverse),
        List.getLast?_append_of_ne_nil _ hne]
      exact hc
    rw [List.getLast?_reverse] at h₂
    exact head?_dropWhile_false h₂
  · intro c hc
    rw [List.getLast?_reverse] at hc
    exact head?_dropWhile_false hc

/-! ## Claim theorems -/

/-- C3: running the section parser and table materializer on the input
`"[A]\nx\ty\n1\t2\n[B]\np\tq\n3\t4\n"` produces exactly two tables: `A`
with header columns `x, y` and the single data row `1, 2`, and `B` with
header columns `p, q` and the single data row `3, 4`. -/
theorem claim3_round_trip :
    process_text "[A]\nx\ty\n1\t2\n[B]\np\tq\n3\t4\n"
      = .ok [("A", ⟨["x", "y"], [[some "1", some "2"]]⟩),
             ("B", ⟨["p", "q"], [[some "3", some "4"]]⟩)] := rfl

/-- C5 counterexample: the header line `"[[A]]"` opens a section named
`"A"`, not `"[A]"` as the claim states — Python `line.strip('[]')` removes
ALL leading and trailing bracket characters, not just the first and the
last one.  On input `["[[A]]", "x", "1"]` the parser output holds the
single section name `"A"`. -/
theorem claim5_counterexample :
    process_text_file ["[[A]]", "x", "1"]
        = .ok [("A", ⟨["x"], [[some "1"]]⟩)] ∧
      stripBrackets (pyStrip "[[A]]") = "A" ∧ "A" ≠ "[A]" := by
  refine ⟨rfl, rfl, ?_⟩
  decide

/-- C5 amended: for every input line that, after stripping whitespace,
begins with `'['`, the parser finalizes the currently active section
(propagating a pandas parse error, if any) and enters a new section whose
name is the line with ALL leading and trailing bracket characters removed
(so the maximal bracket prefix and suffix are stripped, and the remaining
name neither starts nor ends with a bracket character). -/
theorem claim5_bracket_strip_amended (st : ParseState) (line : String)
    (h : startsWithBracket (pyStrip line) = true) :
    process_line st line =
      (finalize_section st.dfs st.current_section st.buffer).map
        (fun dfs => ⟨dfs, some (stripBrackets (pyStrip line)), []⟩) ∧
    (∃ pre suf,
      (pyStrip line).toList
          = pre ++ (stripBrackets (pyStrip line)).toList ++ suf ∧
      (∀ c ∈ pre, isBracketChar c = true) ∧
      (∀ c ∈ suf, isBracketChar c = true) ∧
      (∀ c, ((stripBrackets (pyStrip line)).toList).head? = some c →
        isBracketChar c = false) ∧
      (∀ c, ((stripBrackets (pyStrip line)).toList).getLast? = some c →
        isBracketChar c = false)) := by
  constructor
  · rw [process_line, h]
    simp only [if_pos]
    cases finalize_section st.dfs st.current_section st.buffer <;> rfl
  · have hs := stripChars_spec isBracketChar (pyStrip line).toList
    simpa [stripBrackets] using hs

/-- Witness for C5 amended: concrete instance on the line `" [[A]] "`
with a pending section `B` whose buffer holds one data line. -/
theorem claim5_witness :
    process_line ⟨[], some "B", ["1"]⟩ " [[A]] " =
      (finalize_section [] (some "B") ["1"]).map
        (fun dfs => ⟨dfs, some (stripBrackets (pyStrip " [[A]] ")), []⟩) :=
  (claim5_bracket_strip_amended ⟨[], some "B", ["1"]⟩ " [[A]] " rfl).1

/-- C6 counterexample: a non-`"Heading"` buffer holding only the header
line `"x\ty"` parses to ZERO data rows, yet a `Table` IS produced for the
section (pandas raises `EmptyDataError` only when there are no parseable
columns at all, and a header-only buffer parses fine into an empty
dataframe) — contradicting the claim that a zero-data-row parse produces
no `Table`. -/
theorem claim6_counterexample :
    finalize_section [] (some "X") ["x\ty"]
        = .ok [("X", ⟨["x", "y"], []⟩)] ∧
      (⟨["x", "y"], []⟩ : Table).rows.length = 0 := ⟨rfl, rfl⟩

/-- C6 amended: for every non-empty raw buffer of a section not named
`"Heading"`, if the buffer contains no non-blank line at all, pandas
raises `EmptyDataError`, the materializer logs a warning and produces no
`Table`, and no error propagates; a buffer whose only non-blank content is
a single (header) line instead produces a zero-row `Table` for the
section. -/
theorem claim6_empty_warning_amended (dfs : List (String × Table))
    (sect : String) (buffer : List String)
    (hname : sect ≠ "") (hhead : sect ≠ "Heading") (hne : buffer ≠ []) :
    (buffer.filter (fun l => l ≠ "") = [] →
      finalize_section dfs (some sect) buffer = .ok dfs) ∧
    (∀ hdr, buffer.filter (fun l => l ≠ "") = [hdr] →
      finalize_section dfs (some sect) buffer
        = .ok (dictInsert dfs sect ⟨splitTab hdr, []⟩)) := by
  have hguard : (sect = "" || buffer.isEmpty) = false := by
    simp [hname, hne]
  constructor
  · intro hblank
    rw [finalize_section, hguard]
    simp only [Bool.false_eq_true, if_false]
    rw [read_csv]
    simp only [hblank]
  · intro hdr honly
    rw [finalize_section, hguard]
    simp only [Bool.false_eq_true, if_false]
    rw [read_csv]
    simp only [honly]
    simp [hhead]

/-- Witness for C6 amended: the all-blank buffer `["", ""]` of section
`"X"` is dropped with no error, and the header-only buffer `["x\ty"]`
yields a zero-row table. -/
theorem claim6_witness :
    finalize_section [] (some "X") ["", ""] = .ok [] ∧
    finalize_section [] (some "X") ["x\ty"]
      = .ok (dictInsert [] "X" ⟨splitTab "x\ty", []⟩) := by
  have h := claim6_empty_warning_amended [] "X" ["", ""]
    (by decide) (by decide) (by decide)
  have h₂ := claim6_empty_warning_amended [] "X" ["x\ty"]
    (by decide) (by decide) (by decide)
  exact ⟨h.1 rfl, h₂.2 "x\ty" rfl⟩

/-- C4: the header policy of the table materializer.  When
`_finalize_section` parses a non-empty buffer whose first non-blank line
is `first`, the section literally named `"Heading"` is read with
`header=None`: its columns are the positional indices `0, 1, ...` and
EVERY non-blank buffer line — the first included — is a data row.  Any
other section name is read with `header='infer'`: `first` becomes the
header (its fields are the column labels, whatever the data widths) and
only the remaining lines are data rows — one table row per data line —
and when no data row is wider than the header (so pandas promotes no
index column) the rows are exactly the data lines' fields padded to the
header's width.  In both cases the resulting table is stored under the
section's name. -/
theorem claim4_header_policy (sect first : String) (rest buffer : List String)
    (dfs : List (String × Table)) (t : Table)
    (hsplit : buffer.filter (fun l => l ≠ "") = first :: rest)
    (hok : read_csv (sect = "Heading") buffer = .ok t) :
    (sect = "Heading" →
      t.header = (List.range (splitTab first).length).map toString ∧
      t.rows = (first :: rest).map
        (fun l => padRow (splitTab first).length (splitTab l))) ∧
    (sect ≠ "Heading" →
      t.header = splitTab first ∧
      t.rows.length = rest.length ∧
      ((∀ l ∈ rest, (splitTab l).length ≤ (splitTab first).length) →
        t.rows = rest.map
          (fun l => padRow (splitTab first).length (splitTab l)))) ∧
    (sect ≠ "" → buffer ≠ [] →
      finalize_section dfs (some sect) buffer = .ok (dictInsert dfs sect t)) := by
  refine ⟨?_, ?_, ?_⟩
  · intro hH
    subst hH
    simp only [read_csv, hsplit, decide_eq_true_eq, if_true] at hok
    split at hok
    · exact absurd hok (by simp)
    · simp only [Except.ok.injEq] at hok
      subst hok
      simp
  · intro hH
    cases rest with
    | nil =>
      simp only [read_csv, hsplit, decide_eq_true_eq] at hok
      rw [if_neg hH] at hok
      simp only [Except.ok.injEq] at hok
      subst hok
      simp
    | cons d0 rest₂ =>
      simp only [read_csv, hsplit, decide_eq_true_eq] at hok
      rw [if_neg hH] at hok
      split at hok
      · exact absurd hok (by simp)
      · simp only [Except.ok.injEq] at hok
        subst hok
        refine ⟨rfl, by simp, ?_⟩
        intro hw
        have hmax : max (splitTab first).length (splitTab d0).length
            = (splitTab first).length :=
          Nat.max_eq_left (hw d0 (List.mem_cons_self _ _))
        simp only [hmax, Nat.sub_self, List.drop_zero]
  · intro hname hne
    have hguard : (sect = "" || buffer.isEmpty) = false := by
      simp [hname, hne]
    rw [finalize_section, hguard]
    simp only [Bool.false_eq_true, if_false]
    rw [hok]

/-- Witness for C4: the `"Heading"` buffer `["foo\tbar", "1\t2"]` is read
headerless — positional columns `0, 1` and BOTH lines as data rows. -/
theorem claim4_witness :
    (⟨["0", "1"], [[some "foo", some "bar"], [some "1", some "2"]]⟩ :
        Table).header
      = (List.range (splitTab "foo\tbar").length).map toString ∧
    (⟨["0", "1"], [[some "foo", some "bar"], [some "1", some "2"]]⟩ :
        Table).rows
      = (["foo\tbar", "1\t2"]).map
          (fun l => padRow (splitTab "foo\tbar").length (splitTab l)) :=
  (claim4_header_policy "Heading" "foo\tbar" ["1\t2"] ["foo\tbar", "1\t2"]
    [] _ rfl rfl).1 rfl

/-- Keys of `dictInsert`: every entry either carries the inserted key or
was already present. -/
theorem dictInsert_mem {dfs : List (String × Table)} {k : String}
    {t : Table} {kv : String × Table} (h : kv ∈ dictInsert dfs k t) :
    kv.1 = k ∨ kv ∈ dfs := by
  rw [dictInsert] at h
  split at h
  · rw [List.mem_map] at h
    obtain ⟨p, hp, hpe⟩ := h
    by_cases hk : p.1 = k
    · left
      rw [if_pos hk] at hpe
      rw [← hpe]
    · right
      rw [if_neg hk] at hpe
      rw [← hpe]
      exact hp
  · rw [List.mem_append, List.mem_singleton] at h
    rcases h with h | h
    · right
      exact h
    · left
      rw [h]

/-- `_finalize_section` never stores a table under the empty name. -/
theorem finalize_section_keys {dfs dfs₂ : List (String × Table)}
    {sect : Option String} {buf : List String}
    (h : finalize_section dfs sect buf = .ok dfs₂)
    (hk : ∀ kv ∈ dfs, kv.1 ≠ "") : ∀ kv ∈ dfs₂, kv.1 ≠ "" := by
  cases sect with
  | none =>
    rw [finalize_section] at h
    simp only [Except.ok.injEq] at h
    subst h
    exact hk
  | some s =>
    rw [finalize_section] at h
    by_cases hs : (s = "" || buf.isEmpty) = true
    · rw [if_pos hs] at h
      simp only [Except.ok.injEq] at h
      subst h
      exact hk
    · rw [if_neg hs] at h
      simp only [Bool.or_eq_true, decide_eq_true_eq, not_or] at hs
      split at h
      · simp only [Except.ok.injEq] at h
        subst h
        intro kv hkv
        rcases dictInsert_mem hkv with h₂ | h₂
        · rw [h₂]
          exact hs.1
        · exact hk kv h₂
      · simp only [Except.ok.injEq] at h
        subst h
        exact hk
      · exact absurd h (by simp)

/-- One parser step never stores a table under the empty name. -/
theorem process_line_keys {st st₂ : ParseState} {l : String}
    (h : process_line st l = .ok st₂)
    (hk : ∀ kv ∈ st.dfs, kv.1 ≠ "") : ∀ kv ∈ st₂.dfs, kv.1 ≠ "" := by
  rw [process_line] at h
  split at h
  · match hf : finalize_section st.dfs st.current_section st.buffer with
    | .error e =>
      rw [hf] at h
      exact absurd h (by simp)
    | .ok dfs =>
      rw [hf] at h
      simp only [Except.ok.injEq] at h
      subst h
      exact finalize_section_keys hf hk
  · split at h <;>
      · simp only [Except.ok.injEq] at h
        subst h
        exact hk

/-- The parser loop never stores a table under the empty name. -/
theorem process_lines_keys {st₂ : ParseState} {ls : List String}
    (st : ParseState) (h : process_lines st ls = .ok st₂)
    (hk : ∀ kv ∈ st.dfs, kv.1 ≠ "") : ∀ kv ∈ st₂.dfs, kv.1 ≠ "" := by
  induction ls generalizing st with
  | nil =>
    rw [process_lines] at h
    simp only [Except.ok.injEq] at h
    subst h
    exact hk
  | cons l ls ih =>
    rw [process_lines] at h
    match hl : process_line st l with
    | .error e =>
      rw [hl] at h
      exact absurd h (by simp)
    | .ok st₃ =>
      rw [hl] at h
      exact ih st₃ h (process_line_keys hl hk)

/-- C9: a header line consisting only of brackets (such as `"[]"`) yields
the empty section name, which the parser treats as no active section:
every subsequent content line is discarded (the state is returned
unchanged), and the parser's output never contains a table whose name is
the empty string. -/
theorem claim9_no_empty_name (lines : List String)
    (tables : List (String × Table))
    (h : process_text_file lines = .ok tables) :
    (∀ kv ∈ tables, kv.1 ≠ "") ∧
    stripBrackets (pyStrip "[]") = "" ∧
    (∀ (st : ParseState) (l : String), st.current_section = some "" →
      startsWithBracket (pyStrip l) = false → process_line st l = .ok st) := by
  refine ⟨?_, rfl, ?_⟩
  · rw [process_text_file] at h
    match hls : process_lines initState lines with
    | .error e =>
      rw [hls] at h
      exact absurd h (by simp)
    | .ok st =>
      rw [hls] at h
      have hk := process_lines_keys initState hls (by intro kv hkv; simp [initState] at hkv)
      exact finalize_section_keys h hk
  · intro st l hsec hbr
    rw [process_line, hbr]
    simp only [Bool.false_eq_true, if_false]
    rw [hsec]
    simp [sectionTruthy]

/-- Witness for C9: on input `["[]", "x", "[A]", "1"]` the content line
`"x"` after the bracket-only header is discarded and the output holds only
the table `A`; the discard step is exercised at the concrete state with
active section `""`. -/
theorem claim9_witness :
    (∀ kv ∈ [("A", (⟨["1"], []⟩ : Table))], Prod.fst kv ≠ "") ∧
    process_line ⟨[], some "", []⟩ "x" = .ok ⟨[], some "", []⟩ := by
  have h := claim9_no_empty_name ["[]", "x", "[A]", "1"]
    [("A", ⟨["1"], []⟩)] rfl
  exact ⟨h.1, h.2.2 ⟨[], some "", []⟩ "x" rfl rfl⟩

/-- Inside `process_probes`, filtering against the intersection
`columns_to_drop ∩ df.columns` is the same as filtering against the whole
deny-list: a deny-listed column absent from the table changes nothing. -/
theorem process_probes_eq (t : Table) :
    process_probes t
      = { header := t.header.filter (fun c => ¬ columns_to_drop.contains c),
          rows := t.rows.map (fun r => ((t.header.zip r).filter
              (fun p => ¬ columns_to_drop.contains p.1)).map Prod.snd) } := by
  rw [process_probes, dropColumns]
  have hc : ∀ c, c ∈ t.header →
      (decide (¬ (columns_to_drop.filter
          (fun col => t.header.contains col)).contains c = true))
        = decide (¬ columns_to_drop.contains c = true) := by
    intro c hcm
    simp [List.elem_eq_mem, List.mem_filter, hcm]
  congr 1
  · exact List.filter_congr (fun x hx => hc x hx)
  · apply List.map_congr_left
    intro r _
    congr 1
    apply List.filter_congr
    intro p hp
    exact hc p.1 (List.of_mem_zip hp).1

/-- Dropping columns from a row whose arity matches the header: pairing
the surviving column names with the surviving cells recovers exactly the
filtered (name, cell) pairs of the original row. -/
theorem zip_filter_fst {α β : Type} (p : α → Bool) :
    ∀ (hd : List α) (r : List β), r.length = hd.length →
      (hd.filter p).zip (((hd.zip r).filter (fun x => p x.1)).map Prod.snd)
        = (hd.zip r).filter (fun x => p x.1) := by
  intro hd
  induction hd with
  | nil =>
    intro r hr
    simp
  | cons a hd ih =>
    intro r hr
    match r with
    | [] => simp at hr
    | b :: r =>
    simp only [List.length_cons, Nat.succ.injEq] at hr
    by_cases hpa : p a
    · simp [List.zip_cons_cons, List.filter_cons, hpa, ih r hr]
    · simp [List.zip_cons_cons, List.filter_cons, hpa, ih r hr]

/-- C7: `process_probes` removes exactly the deny-listed columns that are
present (`{Definition, Ontology_Component, Ontology_Process,
Ontology_Function, Synonyms, Obsolete_Probe_Id, Probe_Sequence}`);
deny-listed columns absent from the table are silently ignored, so a
table with columns `ID, Definition, Probe_Sequence, Gene` reduces to
`ID, Gene`, and a table with no deny-listed column is returned
unchanged. -/
theorem claim7_prune (t : Table)
    (harity : ∀ r ∈ t.rows, r.length = t.header.length) :
    (process_probes t).header
        = t.header.filter (fun c => ¬ columns_to_drop.contains c) ∧
    (t.header = ["ID", "Definition", "Probe_Sequence", "Gene"] →
      (process_probes t).header = ["ID", "Gene"]) ∧
    ((∀ c ∈ t.header, ¬ columns_to_drop.contains c) →
      process_probes t = t) := by
  refine ⟨?_, ?_, ?_⟩
  · rw [process_probes_eq]
  · intro hhd
    rw [process_probes_eq]
    simp only [hhd]
    decide
  · intro habs
    rw [process_probes_eq]
    have hhd : t.header.filter (fun c => ¬ columns_to_drop.contains c)
        = t.header := by
      apply List.filter_eq_self.mpr
      intro a ha
      simpa using habs a ha
    have hrows : t.rows.map (fun r => ((t.header.zip r).filter
        (fun p => ¬ columns_to_drop.contains p.1)).map Prod.snd) = t.rows := by
      conv_rhs => rw [← List.map_id t.rows]
      apply List.map_congr_left
      intro r hr
      have hfil : (t.header.zip r).filter
          (fun p => ¬ columns_to_drop.contains p.1) = t.header.zip r := by
        apply List.filter_eq_self.mpr
        intro a ha
        simpa using habs a.1 (List.of_mem_zip ha).1
      rw [hfil]
      exact List.map_snd_zip _ _ (le_of_eq (harity r hr))
    rw [hhd, hrows]

/-- Witness for C7: the concrete reduction `ID, Definition,
Probe_Sequence, Gene ↦ ID, Gene`, and a table with no deny-listed column
returned unchanged. -/
theorem claim7_witness :
    (process_probes ⟨["ID", "Definition", "Probe_Sequence", "Gene"],
        [[some "1", some "d", some "s", some "g"]]⟩).header = ["ID", "Gene"] ∧
    process_probes ⟨["ID", "Gene"], [[some "1", some "g"]]⟩
      = ⟨["ID", "Gene"], [[some "1", some "g"]]⟩ := by
  constructor
  · exact (claim7_prune ⟨["ID", "Definition", "Probe_Sequence", "Gene"],
      [[some "1", some "d", some "s", some "g"]]⟩ (by decide)).2.1 rfl
  · exact (claim7_prune ⟨["ID", "Gene"], [[some "1", some "g"]]⟩
      (by decide)).2.2 (by decide)

/-- C10: `process_probes` only removes columns.  The number and order of
rows are unchanged; the surviving columns keep their relative order (the
pruned header is a sublist of the original); and row by row, pairing the
surviving column names with the pruned cells gives exactly the original
row's (name, cell) pairs restricted to the surviving columns — every
value in a surviving column is unchanged. -/
theorem claim10_prune_frame (t : Table)
    (harity : ∀ r ∈ t.rows, r.length = t.header.length) :
    (process_probes t).rows.length = t.rows.length ∧
    (process_probes t).header.Sublist t.header ∧
    List.Forall₂ (fun r r₂ => (process_probes t).header.zip r₂
        = (t.header.zip r).filter (fun p => ¬ columns_to_drop.contains p.1))
      t.rows (process_probes t).rows := by
  refine ⟨?_, ?_, ?_⟩
  · rw [process_probes_eq]
    exact List.length_map _ _
  · rw [process_probes_eq]
    exact List.filter_sublist _
  · rw [process_probes_eq]
    simp only [List.forall₂_map_right_iff]
    apply List.forall₂_same.mpr
    intro r hr
    exact zip_filter_fst _ t.header r (harity r hr)

/-- Witness for C10: the frame property at a concrete two-row table. -/
theorem claim10_witness :
    (process_probes ⟨["ID", "Synonyms", "Gene"],
        [[some "1", some "syn", some "g"],
         [some "2", some "syn2", some "h"]]⟩).rows.length = 2 ∧
    (process_probes ⟨["ID", "Synonyms", "Gene"],
        [[some "1", some "syn", some "g"],
         [some "2", some "syn2", some "h"]]⟩).header.Sublist
      ["ID", "Synonyms", "Gene"] := by
  have h := claim10_prune_frame ⟨["ID", "Synonyms", "Gene"],
    [[some "1", some "syn", some "g"],
     [some "2", some "syn2", some "h"]]⟩ (by decide)
  exact ⟨h.1, h.2.1⟩

/-- C2 counterexample: one extracted file whose section content has
inconsistent data-row widths — header `"a\tb"`, first data row `"1\t2"`
(establishing a two-field width), then `"3\t4\t5"` with three fields —
makes `pd.read_csv` raise a `ParserError` ("Expected 2 fields, saw 3"),
which is caught nowhere in `ProcessFiles.run`: the stage body fails and
the `_processed` marker is NOT written — contradicting the claim that any
per-file parse failure is logged and skipped and the stage as a whole
succeeds. -/
theorem claim2_counterexample :
    ProcessFiles.run
        ⟨[("f1", .text ["[A]", "a\tb", "1\t2", "3\t4\t5"])], true⟩
      = (.error .parserError, false, false) := rfl

/-- The per-file loop of `ProcessFiles.run` succeeds when every member
either fails decompression (logged and skipped) or parses cleanly, and it
produces one table-set per successfully decompressed member, in order. -/
theorem processLoop_ok (files : List (String × GzOutcome))
    (hparse : files.all fileParses = true) :
    ∃ outs, processLoop files = .ok outs ∧
      List.Forall₂ (fun f o => o.1 = f.1 ∧
          ∃ lines, f.2 = GzOutcome.text lines ∧
            process_text_file lines = .ok o.2)
        (files.filter isTextFile) outs := by
  induction files with
  | nil => exact ⟨[], rfl, List.Forall₂.nil⟩
  | cons f rest ih =>
    simp only [List.all_cons, Bool.and_eq_true] at hparse
    obtain ⟨outs, houts, hfa⟩ := ih hparse.2
    match f with
    | (nm, .badGzip) =>
      refine ⟨outs, ?_, ?_⟩
      · rw [processLoop, houts]
      · rw [List.filter_cons_of_neg (by simp [isTextFile])]
        exact hfa
    | (nm, .text lines) =>
      have hp := hparse.1
      rw [fileParses] at hp
      match hres : process_text_file lines with
      | .error e =>
        rw [hres] at hp
        exact absurd hp (by simp [Except.isOk, Except.toBool])
      | .ok tables =>
        refine ⟨(nm, tables) :: outs, ?_, ?_⟩
        · rw [processLoop, hres, houts]
        · rw [List.filter_cons_of_pos (by rfl)]
          exact List.Forall₂.cons ⟨rfl, lines, rfl, hres⟩ hfa

/-- C2 amended: `ProcessFiles.run` recovers per-file DECOMPRESSION
failures locally — they are logged and the file skipped — and, provided no
decompressed file raises an uncaught pandas `ParserError`, the stage as a
whole succeeds and writes its `_processed` marker after all inputs have
been attempted, producing one table-set per well-formed file; however a
`ParserError` — a data row wider than the established row width (the
header's field count, or the first data row's when that row is wider and
its extra leading fields are promoted to index columns) — propagates out
of the stage body and fails the stage (only `EmptyDataError` is
recovered, inside `_finalize_section`). -/
theorem claim2_partial_failure_amended (env : ProcessEnv)
    (hparse : env.files.all fileParses = true)
    (hm : env.marker_write_ok = true) :
    ∃ outs, ProcessFiles.run env = (.ok outs, true, true) ∧
      List.Forall₂ (fun f o => o.1 = f.1 ∧
          ∃ lines, f.2 = GzOutcome.text lines ∧
            process_text_file lines = .ok o.2)
        (env.files.filter isTextFile) outs := by
  obtain ⟨outs, houts, hfa⟩ := processLoop_ok env.files hparse
  refine ⟨outs, ?_, hfa⟩
  rw [ProcessFiles.run, houts, hm]
  simp

/-- Witness for C2 amended: the spec's partial-failure scenario — three
extracted members, the middle one with malformed gzip content — still
succeeds, writes the marker, and produces tables for the two well-formed
members. -/
theorem claim2_witness :
    ∃ outs, ProcessFiles.run
        ⟨[("a", .text ["[A]", "x", "1"]), ("b", .badGzip),
          ("c", .text ["[B]", "y", "2"])], true⟩ = (.ok outs, true, true) ∧
      List.Forall₂ (fun f o => o.1 = f.1 ∧
          ∃ lines, f.2 = GzOutcome.text lines ∧
            process_text_file lines = .ok o.2)
        (([("a", .text ["[A]", "x", "1"]), ("b", .badGzip),
          ("c", .text ["[B]", "y", "2"])].filter isTextFile)) outs :=
  claim2_partial_failure_amended
    ⟨[("a", .text ["[A]", "x", "1"]), ("b", .badGzip),
      ("c", .text ["[B]", "y", "2"])], true⟩ rfl rfl

/-- Each stage body creates its completion marker exactly when it runs to
completion successfully: the marker write is the last action of every
`run` body and is reached only when no error propagates, and the write
itself is atomic. -/
theorem stage_marker_iff_success (s : Stage) (env : StageEnv) :
    (stageOutcome s env).2 = (stageOutcome s env).1 := by
  cases s with
  | download =>
    by_cases h : env.download.wget_ok <;>
      simp [stageOutcome, DownloadDataset.run, h]
  | extract =>
    by_cases h : env.extract.tar_ok <;>
      by_cases h₂ : env.extract.marker_write_ok <;>
        simp [stageOutcome, ExtractMainArchive.run, h, h₂]
  | process =>
    match hp : processLoop env.process.files with
    | .error e =>
      simp [stageOutcome, ProcessFiles.run, hp]
    | .ok outs =>
      by_cases h₂ : env.process.marker_write_ok <;>
        simp [stageOutcome, ProcessFiles.run, hp, h₂]
  | trim =>
    by_cases h : env.trim.marker_write_ok <;>
      simp [stageOutcome, TrimProbes.run, h]
  | cleanup =>
    by_cases h : noTxtDirs env.cleanup.tree <;>
      by_cases h₂ : env.cleanup.marker_write_ok <;>
        simp [stageOutcome, Cleanup.run, h, h₂]

/-- C1: the completion-marker invariant.  A stage body that fails never
creates its marker, and every scheduling step of the pipeline — skipping
a stage whose marker exists, or running its body and creating the marker
exactly on success — preserves the invariant that a stage's marker exists
iff its body has run to completion successfully at least once since the
workspace was cleared. -/
theorem claim1_marker_iff_completed (st : PipelineState) (s : Stage)
    (env : StageEnv) (h : ∀ s₂, st.marker s₂ = st.completed s₂) :
    (∀ (s₃ : Stage) (env₃ : StageEnv), (stageOutcome s₃ env₃).1 = false →
      (stageOutcome s₃ env₃).2 = false) ∧
    ∀ s₂, (runStage st s env).marker s₂ = (runStage st s env).completed s₂ := by
  constructor
  · intro s₃ env₃ hfail
    rw [stage_marker_iff_success, hfail]
  · intro s₂
    rw [runStage]
    by_cases hm : st.marker s
    · rw [if_pos hm]
      exact h s₂
    · rw [if_neg hm]
      by_cases hs : s₂ = s
      · simp only [hs, if_pos rfl]
        rw [stage_marker_iff_success, h s]
      · simp only [if_neg hs]
        exact h s₂

/-- Witness for C1: a fresh workspace (no markers, nothing completed)
stepped on the Extract stage with all collaborators succeeding — the
invariant holds afterwards at the stage just run and at its successor. -/
theorem claim1_witness :
    (runStage ⟨fun _ => false, fun _ => false⟩ .extract
        ⟨⟨true⟩, ⟨true, true⟩, ⟨[], true⟩, ⟨[], true⟩, ⟨[], true⟩⟩).marker
        .extract
      = (runStage ⟨fun _ => false, fun _ => false⟩ .extract
        ⟨⟨true⟩, ⟨true, true⟩, ⟨[], true⟩, ⟨[], true⟩, ⟨[], true⟩⟩).completed
        .extract ∧
    (runStage ⟨fun _ => false, fun _ => false⟩ .extract
        ⟨⟨true⟩, ⟨true, true⟩, ⟨[], true⟩, ⟨[], true⟩, ⟨[], true⟩⟩).marker
        .process
      = (runStage ⟨fun _ => false, fun _ => false⟩ .extract
        ⟨⟨true⟩, ⟨true, true⟩, ⟨[], true⟩, ⟨[], true⟩, ⟨[], true⟩⟩).completed
        .process :=
  ⟨(claim1_marker_iff_completed ⟨fun _ => false, fun _ => false⟩ .extract
      ⟨⟨true⟩, ⟨true, true⟩, ⟨[], true⟩, ⟨[], true⟩, ⟨[], true⟩⟩
      (fun _ => rfl)).2 .extract,
   (claim1_marker_iff_completed ⟨fun _ => false, fun _ => false⟩ .extract
      ⟨⟨true⟩, ⟨true, true⟩, ⟨[], true⟩, ⟨[], true⟩, ⟨[], true⟩⟩
      (fun _ => rfl)).2 .process⟩

/-! ## Cleanup-pass lemmas -/

/-- A visit at a one-component path removes exactly the top-level empty
directories carrying that name. -/
theorem rmdir_single (nm : String) :
    ∀ cs : List FsEntry, rmdirIfEmpty cs [nm]
      = cs.filter (fun c => !(decide (c.name = nm) && c.isEmptyDir)) := by
  intro cs
  induction cs with
  | nil => simp [rmdirIfEmpty]
  | cons c cs ih =>
    rw [rmdirIfEmpty, ih, List.filter_cons]
    by_cases h : (decide (c.name = nm) && c.isEmptyDir) = true
    · rw [if_pos h]
      simp [h]
    · rw [if_neg h]
      simp only [Bool.not_eq_true] at h
      simp [h]

/-- A visit at a path of length at least two maps `visitStep` over the
top-level entries. -/
theorem rmdir_long_map (nm q : String) (qs : List String) :
    ∀ cs : List FsEntry, rmdirIfEmpty cs (nm :: q :: qs)
      = cs.map (fun c => visitStep c (nm :: q :: qs)) := by
  intro cs
  induction cs with
  | nil => simp [rmdirIfEmpty]
  | cons c cs ih =>
    cases c <;> rw [rmdirIfEmpty, ih] <;> rfl

/-- Folding visits whose paths all have length at least two acts
independently on each top-level entry. -/
theorem foldl_rmdir_long (ps : List (List String)) :
    ∀ cs : List FsEntry,
      (∀ p ∈ ps, ∃ nm q qs, p = nm :: q :: qs) →
      List.foldl rmdirIfEmpty cs ps
        = cs.map (fun c => List.foldl visitStep c ps) := by
  induction ps with
  | nil =>
    intro cs _
    simp
  | cons p ps ih =>
    intro cs hl
    obtain ⟨nm, q, qs, rfl⟩ := hl _ (List.mem_cons_self _ _)
    rw [List.foldl_cons, rmdir_long_map, ih _ (fun p hp => hl p (List.mem_cons_of_mem _ hp)),
      List.map_map]
    rfl

/-- Every entry of `visitAux cs` descends through a directory of `cs`:
it has the form `nm :: q :: qs` for some directory `.dir nm gs ∈ cs`. -/
theorem visitAux_shape :
    ∀ (cs : List FsEntry), ∀ p ∈ visitAux cs,
      ∃ nm gs, FsEntry.dir nm gs ∈ cs ∧ ∃ q qs, p = nm :: q :: qs := by
  intro cs
  induction cs using visitAux.induct with
  | case1 =>
    intro p hp
    simp [visitAux] at hp
  | case2 nm rest ih =>
    intro p hp
    rw [visitAux] at hp
    obtain ⟨nm₂, gs₂, hmem, q, qs, rfl⟩ := ih p hp
    exact ⟨nm₂, gs₂, List.mem_cons_of_mem _ hmem, q, qs, rfl⟩
  | case3 nm gs rest ihg ihr =>
    intro p hp
    rw [visitAux] at hp
    rw [List.mem_append, List.mem_map] at hp
    rcases hp with ⟨p₂, hp₂, rfl⟩ | hp
    · rw [List.mem_append] at hp₂
      rcases hp₂ with hp₂ | hp₂
      · rw [List.mem_map] at hp₂
        obtain ⟨c, _, rfl⟩ := hp₂
        exact ⟨nm, gs, List.mem_cons_self _ _, c.name, [], rfl⟩
      · obtain ⟨nm₂, gs₂, _, q, qs, rfl⟩ := ihg p₂ hp₂
        exact ⟨nm, gs, List.mem_cons_self _ _, nm₂, q :: qs, rfl⟩
    · obtain ⟨nm₂, gs₂, hmem, q, qs, rfl⟩ := ihr p hp
      exact ⟨nm₂, gs₂, List.mem_cons_of_mem _ hmem, q, qs, rfl⟩

/-- Folding visits over an entry none of whose paths start with the
entry's name leaves the entry unchanged. -/
theorem foldl_visitStep_id (c : FsEntry) :
    ∀ ps : List (List String),
      (∀ p ∈ ps, ∀ q qs, p = q :: qs → q ≠ c.name) →
      List.foldl visitStep c ps = c := by
  intro ps
  induction ps with
  | nil => intro _; rfl
  | cons p ps ih =>
    intro h
    have hstep : visitStep c p = c := by
      match p, c with
      | [], c => cases c <;> rfl
      | [q], c => cases c <;> rfl
      | q :: q₂ :: qs, .file nm₂ => rfl
      | q :: q₂ :: qs, .dir nm₂ gs =>
        have hq : q ≠ nm₂ := h _ (List.mem_cons_self _ _) q (q₂ :: qs) rfl
        rw [visitStep]
        rw [if_neg (fun hc => hq hc.symm)]
    rw [List.foldl_cons, hstep]
    exact ih (fun p hp => h p (List.mem_cons_of_mem _ hp))

/-- Folding a directory's own visit block over that directory applies the
inner visits to its children. -/
theorem foldl_visitStep_own (nm : String) :
    ∀ (ps : List (List String)) (gs : List FsEntry),
      (∀ p ∈ ps, p ≠ []) →
      List.foldl visitStep (FsEntry.dir nm gs) (ps.map (fun p => nm :: p))
        = FsEntry.dir nm (List.foldl rmdirIfEmpty gs ps) := by
  intro ps
  induction ps with
  | nil => intro gs _; rfl
  | cons p ps ih =>
    intro gs hne
    match p, hne _ (List.mem_cons_self _ _) with
    | q :: qs, _ =>
      rw [List.map_cons, List.foldl_cons, List.foldl_cons]
      have hstep : visitStep (FsEntry.dir nm gs) (nm :: q :: qs)
          = FsEntry.dir nm (rmdirIfEmpty gs (q :: qs)) := by
        rw [visitStep, if_pos rfl]
      rw [hstep]
      exact ih _ (fun p hp => hne p (List.mem_cons_of_mem _ hp))

/-- `pruneEmptyDirs` filters out the already-empty directories and prunes
the survivors' children. -/
theorem prune_eq :
    ∀ cs : List FsEntry, pruneEmptyDirs cs
      = (cs.filter (fun c => !c.isEmptyDir)).map pruneOne := by
  intro cs
  induction cs with
  | nil => simp [pruneEmptyDirs]
  | cons c cs ih =>
    match c with
    | .file nm =>
      rw [pruneEmptyDirs, ih, List.filter_cons_of_pos (by rfl), List.map_cons]
      rfl
    | .dir nm [] =>
      rw [pruneEmptyDirs, ih, List.filter_cons_of_neg (by simp [FsEntry.isEmptyDir])]
    | .dir nm (g :: gs) =>
      rw [pruneEmptyDirs, ih, List.filter_cons_of_pos (by rfl), List.map_cons]
      rfl

/-- Folding one-component visits for a list of names removes exactly the
top-level empty directories whose name occurs among the visited names. -/
theorem foldl_single_names (nms : List String) :
    ∀ cs : List FsEntry,
      List.foldl rmdirIfEmpty cs (nms.map (fun nm => [nm]))
        = cs.filter (fun c => !(decide (c.name ∈ nms) && c.isEmptyDir)) := by
  induction nms with
  | nil =>
    intro cs
    rw [List.map_nil, List.foldl_nil]
    symm
    apply List.filter_eq_self.mpr
    intro c _
    simp
  | cons nm nms ih =>
    intro cs
    rw [List.map_cons, List.foldl_cons, ih, rmdir_single, List.filter_filter]
    apply List.filter_congr
    intro c _
    by_cases h₁ : c.name = nm <;> by_cases h₂ : c.name ∈ nms <;>
      cases he : c.isEmptyDir <;> simp [h₁, h₂, he, List.mem_cons]

/-- A well-formed tree has distinct top-level names. -/
theorem wfNames_nodup :
    ∀ cs : List FsEntry, wfNames cs = true → (cs.map FsEntry.name).Nodup := by
  intro cs
  induction cs using wfNames.induct with
  | case1 =>
    intro _
    simp
  | case2 nm rest ih =>
    intro h
    rw [wfNames, Bool.and_eq_true] at h
    rw [List.map_cons, List.nodup_cons]
    refine ⟨?_, ih h.2⟩
    intro hmem
    obtain ⟨c, hc, hcn⟩ := List.mem_map.mp hmem
    have h₂ := List.all_eq_true.mp h.1 c hc
    simp only [decide_eq_true_eq] at h₂
    exact h₂ hcn
  | case3 nm gs rest ihg ihr =>
    intro h
    rw [wfNames, Bool.and_eq_true, Bool.and_eq_true] at h
    rw [List.map_cons, List.nodup_cons]
    refine ⟨?_, ihr h.2⟩
    intro hmem
    obtain ⟨c, hc, hcn⟩ := List.mem_map.mp hmem
    have h₂ := List.all_eq_true.mp h.1.1 c hc
    simp only [decide_eq_true_eq] at h₂
    exact h₂ hcn

/-- In a well-formed tree, every directory's children are well-formed. -/
theorem wfNames_mem_dir :
    ∀ cs : List FsEntry, wfNames cs = true →
      ∀ {nm : String} {gs : List FsEntry},
        FsEntry.dir nm gs ∈ cs → wfNames gs = true := by
  intro cs
  induction cs using wfNames.induct with
  | case1 =>
    intro _ nm gs hmem
    exact absurd hmem (List.not_mem_nil _)
  | case2 nm₂ rest ih =>
    intro h nm gs hmem
    rw [wfNames, Bool.and_eq_true] at h
    rcases List.mem_cons.mp hmem with heq | hmem₂
    · exact absurd heq (by simp)
    · exact ih h.2 hmem₂
  | case3 nm₂ gs₂ rest ihg ihr =>
    intro h nm gs hmem
    rw [wfNames, Bool.and_eq_true, Bool.and_eq_true] at h
    rcases List.mem_cons.mp hmem with heq | hmem₂
    · cases heq
      exact h.1.2
    · exact ihr h.2 hmem₂

/-- The heart of the top-down argument: when a directory's entry is
visited, none of its own children has been visited yet, so the whole
visit sequence transforms each surviving top-level entry by pruning the
already-empty directories among its children — and nothing more. -/
theorem entry_fold :
    ∀ (src : List FsEntry) (c : FsEntry), c ∈ src →
      (src.map FsEntry.name).Nodup →
      (∀ nm gs, FsEntry.dir nm gs ∈ src →
        List.foldl rmdirIfEmpty gs (visitList gs) = pruneEmptyDirs gs) →
      List.foldl visitStep c (visitAux src) = pruneOne c := by
  intro src
  induction src with
  | nil =>
    intro c hc _ _
    exact absurd hc (List.not_mem_nil c)
  | cons d rest ih =>
    intro c hc hnd hIH
    rw [List.map_cons, List.nodup_cons] at hnd
    obtain ⟨hdn, hnd₂⟩ := hnd
    match d with
    | .file nm =>
      rw [visitAux]
      rcases List.mem_cons.mp hc with rfl | hc₂
      · apply foldl_visitStep_id
        intro p hp q qs hpe
        obtain ⟨nm₂, gs₂, hmem₂, q₂, qs₂, rfl⟩ := visitAux_shape rest p hp
        injection hpe with h₁ _
        subst h₁
        intro hqc
        exact hdn (hqc ▸ List.mem_map.mpr ⟨.dir nm₂ gs₂, hmem₂, rfl⟩)
      · exact ih c hc₂ hnd₂
          (fun nm₃ gs₃ hm => hIH nm₃ gs₃ (List.mem_cons_of_mem _ hm))
    | .dir nm gs =>
      rw [visitAux, List.foldl_append]
      rcases List.mem_cons.mp hc with rfl | hc₂
      · have hblock : List.foldl visitStep (FsEntry.dir nm gs)
            (((gs.map fun c => [c.name]) ++ visitAux gs).map (fun p => nm :: p))
            = FsEntry.dir nm
                (List.foldl rmdirIfEmpty gs
                  ((gs.map fun c => [c.name]) ++ visitAux gs)) := by
          apply foldl_visitStep_own
          intro p hp
          rw [List.mem_append] at hp
          rcases hp with hp | hp
          · obtain ⟨c₂, _, rfl⟩ := List.mem_map.mp hp
            simp
          · obtain ⟨nm₂, gs₂, _, q, qs, rfl⟩ := visitAux_shape gs p hp
            simp
        rw [hblock]
        have hvl : (gs.map fun c => [c.name]) ++ visitAux gs = visitList gs := rfl
        rw [hvl, hIH nm gs (List.mem_cons_self _ _)]
        have hpr : pruneOne (FsEntry.dir nm gs)
            = FsEntry.dir nm (pruneEmptyDirs gs) := rfl
        rw [hpr]
        apply foldl_visitStep_id
        intro p hp q qs hpe
        obtain ⟨nm₂, gs₂, hmem₂, q₂, qs₂, rfl⟩ := visitAux_shape rest p hp
        injection hpe with h₁ _
        subst h₁
        intro hqc
        exact hdn (hqc ▸ List.mem_map.mpr ⟨.dir nm₂ gs₂, hmem₂, rfl⟩)
      · have hblock : List.foldl visitStep c
            (((gs.map fun c => [c.name]) ++ visitAux gs).map (fun p => nm :: p))
            = c := by
          apply foldl_visitStep_id
          intro p hp q qs hpe
          obtain ⟨p₂, _, rfl⟩ := List.mem_map.mp hp
          injection hpe with h₁ _
          subst h₁
          intro hqc
          exact hdn (hqc ▸ List.mem_map.mpr ⟨c, hc₂, rfl⟩)
        rw [hblock]
        exact ih c hc₂ hnd₂
          (fun nm₃ gs₃ hm => hIH nm₃ gs₃ (List.mem_cons_of_mem _ hm))

/-- The glob sweep of `Cleanup.run`, on a well-formed tree, removes
exactly the directories that are already empty when the sweep starts:
since every directory is visited before its own children, a directory
emptied during the sweep is never removed. -/
theorem cleanup_fold_aux :
    ∀ (n : Nat) (cs : List FsEntry), sizeOf cs ≤ n → wfNames cs = true →
      List.foldl rmdirIfEmpty cs (visitList cs) = pruneEmptyDirs cs := by
  intro n
  induction n with
  | zero =>
    intro cs hsz _
    exact absurd hsz (by cases cs <;> simp)
  | succ n ih =>
    intro cs hsz hwf
    rw [visitList, List.foldl_append]
    have hphase1 : List.foldl rmdirIfEmpty cs (cs.map fun c => [c.name])
        = cs.filter (fun c => !c.isEmptyDir) := by
      have h₂ : cs.map (fun c => [c.name])
          = (cs.map FsEntry.name).map (fun nm => [nm]) := by
        rw [List.map_map]
        rfl
      rw [h₂, foldl_single_names]
      apply List.filter_congr
      intro c hc
      have hmem : c.name ∈ cs.map FsEntry.name := List.mem_map.mpr ⟨c, hc, rfl⟩
      simp [hmem]
    rw [hphase1]
    have hlong : ∀ p ∈ visitAux cs, ∃ nm q qs, p = nm :: q :: qs := by
      intro p hp
      obtain ⟨nm, gs, _, q, qs, rfl⟩ := visitAux_shape cs p hp
      exact ⟨nm, q, qs, rfl⟩
    rw [foldl_rmdir_long _ _ hlong, prune_eq]
    apply List.map_congr_left
    intro c hc
    apply entry_fold cs c (List.mem_of_mem_filter hc) (wfNames_nodup cs hwf)
    intro nm gs hmem
    have hsz₂ : sizeOf gs ≤ n := by
      have h₁ := List.sizeOf_lt_of_mem hmem
      have h₂ : sizeOf gs < sizeOf (FsEntry.dir nm gs) := by
        simp
      omega
    exact ih gs hsz₂ (wfNames_mem_dir cs hwf hmem)

/-- Deleting `.txt` files never introduces a new name: every survivor
carries the name of an original sibling. -/
theorem mem_removeTxt_name :
    ∀ (cs : List FsEntry), ∀ c₂ ∈ removeTxt cs,
      ∃ c ∈ cs, FsEntry.name c₂ = FsEntry.name c := by
  intro cs
  induction cs with
  | nil =>
    intro c₂ h
    rw [removeTxt] at h
    exact absurd h (List.not_mem_nil _)
  | cons c rest ih =>
    intro c₂ h
    match c with
    | .file nm =>
      rw [removeTxt] at h
      by_cases he : strEndsWith nm ".txt" = true
      · rw [if_pos he] at h
        obtain ⟨c₃, hc₃, hn⟩ := ih c₂ h
        exact ⟨c₃, List.mem_cons_of_mem _ hc₃, hn⟩
      · rw [if_neg he] at h
        rcases List.mem_cons.mp h with rfl | h₂
        · exact ⟨.file nm, List.mem_cons_self _ _, rfl⟩
        · obtain ⟨c₃, hc₃, hn⟩ := ih c₂ h₂
          exact ⟨c₃, List.mem_cons_of_mem _ hc₃, hn⟩
    | .dir nm gs =>
      rw [removeTxt] at h
      rcases List.mem_cons.mp h with rfl | h₂
      · exact ⟨.dir nm gs, List.mem_cons_self _ _, rfl⟩
      · obtain ⟨c₃, hc₃, hn⟩ := ih c₂ h₂
        exact ⟨c₃, List.mem_cons_of_mem _ hc₃, hn⟩

/-- Deleting `.txt` files preserves well-formedness of the tree. -/
theorem wfNames_removeTxt :
    ∀ cs : List FsEntry, wfNames cs = true →
      wfNames (removeTxt cs) = true := by
  intro cs
  induction cs using wfNames.induct with
  | case1 =>
    intro _
    rw [removeTxt, wfNames]
  | case2 nm rest ih =>
    intro h
    rw [wfNames, Bool.and_eq_true] at h
    rw [removeTxt]
    by_cases he : strEndsWith nm ".txt" = true
    · rw [if_pos he]
      exact ih h.2
    · rw [if_neg he, wfNames, Bool.and_eq_true]
      refine ⟨List.all_eq_true.mpr ?_, ih h.2⟩
      intro c₂ hc₂
      obtain ⟨c₃, hc₃, hn⟩ := mem_removeTxt_name rest c₂ hc₂
      have h₂ := List.all_eq_true.mp h.1 c₃ hc₃
      simp only [decide_eq_true_eq] at h₂ ⊢
      rw [hn]
      exact h₂
  | case3 nm gs rest ihg ihr =>
    intro h
    rw [wfNames, Bool.and_eq_true, Bool.and_eq_true] at h
    rw [removeTxt, wfNames, Bool.and_eq_true, Bool.and_eq_true]
    refine ⟨⟨List.all_eq_true.mpr ?_, ihg h.1.2⟩, ihr h.2⟩
    intro c₂ hc₂
    obtain ⟨c₃, hc₃, hn⟩ := mem_removeTxt_name rest c₂ hc₂
    have h₂ := List.all_eq_true.mp h.1.1 c₃ hc₃
    simp only [decide_eq_true_eq] at h₂ ⊢
    rw [hn]
    exact h₂

/-- After the first loop of `Cleanup.run`, no `.txt` file remains
anywhere in the tree. -/
theorem noTxtFiles_removeTxt :
    ∀ cs : List FsEntry, noTxtFiles (removeTxt cs) = true := by
  intro cs
  induction cs using wfNames.induct with
  | case1 =>
    rw [removeTxt, noTxtFiles]
  | case2 nm rest ih =>
    rw [removeTxt]
    by_cases he : strEndsWith nm ".txt" = true
    · rw [if_pos he]
      exact ih
    · rw [if_neg he, noTxtFiles, Bool.and_eq_true]
      exact ⟨by simp [he], ih⟩
  | case3 nm gs rest ihg ihr =>
    rw [removeTxt, noTxtFiles, Bool.and_eq_true]
    exact ⟨ihg, ihr⟩

/-- Pruning empty directories removes entries only, so a tree without
`.txt` files stays without them. -/
theorem noTxtFiles_prune :
    ∀ cs : List FsEntry, noTxtFiles cs = true →
      noTxtFiles (pruneEmptyDirs cs) = true := by
  intro cs
  induction cs using wfNames.induct with
  | case1 =>
    intro h
    rw [pruneEmptyDirs]
    exact h
  | case2 nm rest ih =>
    intro h
    rw [noTxtFiles, Bool.and_eq_true] at h
    rw [pruneEmptyDirs, noTxtFiles, Bool.and_eq_true]
    exact ⟨h.1, ih h.2⟩
  | case3 nm gs rest ihg ihr =>
    intro h
    rw [noTxtFiles, Bool.and_eq_true] at h
    match gs with
    | [] =>
      rw [pruneEmptyDirs]
      exact ihr h.2
    | g :: gs₂ =>
      rw [pruneEmptyDirs, noTxtFiles, Bool.and_eq_true]
      exact ⟨ihg h.1, ihr h.2⟩

/-- C8 counterexample: after the `.txt` file is deleted, the directory
`GSM1` holds only the empty directory `tables`; the glob sweep visits
`GSM1` (still non-empty) BEFORE `tables`, so `tables` is removed but the
parent `GSM1`, emptied by that removal, remains — the walk is top-down,
not bottom-up, and a directory emptied by the pass survives it. -/
theorem claim8_counterexample :
    cleanupRun [.dir "GSM1" [.file "GSM1.txt", .dir "tables" []]]
        = [FsEntry.dir "GSM1" []] ∧
      (FsEntry.dir "GSM1" []).isEmptyDir = true := by
  constructor
  · simp [cleanupRun, cleanupDirs, visitList, visitAux, removeTxt,
      rmdirIfEmpty, strEndsWith, FsEntry.name, FsEntry.isEmptyDir,
      List.isPrefixOf]
  · rfl

/-- C8 amended: on a tree with distinct sibling names, the Cleanup stage
first deletes every `.txt` file under the processed directory, then
sweeps directories in top-down glob order, removing exactly those
directories that were ALREADY empty after the file-deletion pass: every
directory is visited before its own children, so a parent directory that
only becomes empty when its empty children are removed is NOT removed by
the same pass.  Afterwards no `.txt` file remains. -/
theorem claim8_cleanup_amended (cs : List FsEntry)
    (hwf : wfNames cs = true) :
    cleanupRun cs = pruneEmptyDirs (removeTxt cs) ∧
    noTxtFiles (cleanupRun cs) = true := by
  have hmain : cleanupRun cs = pruneEmptyDirs (removeTxt cs) := by
    rw [cleanupRun, cleanupDirs]
    exact cleanup_fold_aux (sizeOf (removeTxt cs)) (removeTxt cs) le_rfl
      (wfNames_removeTxt cs hwf)
  refine ⟨hmain, ?_⟩
  rw [hmain]
  exact noTxtFiles_prune _ (noTxtFiles_removeTxt cs)

/-- Witness for C8 amended: the sweep on a concrete processed tree. -/
theorem claim8_witness :
    cleanupRun [.dir "GSM1" [.file "GSM1.txt", .dir "tables" []],
        .file "k.tsv"]
      = pruneEmptyDirs (removeTxt
          [.dir "GSM1" [.file "GSM1.txt", .dir "tables" []],
           .file "k.tsv"]) ∧
    noTxtFiles (cleanupRun
        [.dir "GSM1" [.file "GSM1.txt", .dir "tables" []],
         .file "k.tsv"]) = true :=
  claim8_cleanup_amended
    [.dir "GSM1" [.file "GSM1.txt", .dir "tables" []], .file "k.tsv"]
    (by simp [wfNames, FsEntry.name])

end Luigi
